import Mathlib

/-!
Verification of the membership interval reconciliation algorithm of
`runningaheadmembers.py` (class `RunningAheadMembers`).

Modelling notes.

* Dates.  The source stores dates as zero-padded `YYYY-MM-DD` strings and
  compares them lexically; lexical order on such strings coincides with
  lexicographic order on the `(year, month, day)` triples, and the only place
  the source parses a date (`ymd.asc2dt`) it merely reads the year and
  rebuilds a string (`ymd.dt2asc`).  We therefore model a date as a numeric
  triple with lexicographic comparison; `jan1after` models
  `datetime(lastexp_dt.year + 1, 1, 1)`.

* Records.  A raw CSV row (`membership` in the source) becomes `RawRecord`:
  the named fields the algorithm reads, plus an opaque `payload` standing for
  the remaining pass-through columns.  `thisrec` in the source becomes
  `MemberRec`; its `tossed` key, absent until line 121 sets it to `'Y'`,
  is modelled as a `Bool` that starts out `false`.

* Grouping.  `self.names` maps `(lname, fname, dob)` to the list of that
  identity's records in input order; we model the group of a key as
  `(input.filter ...).map toMemberRec`, which is exactly the append order.

* Sorting.  `sorted(..., key=lambda k: (k['expiration'], k['join']))` is a
  stable sort by the lexical pair order; stable sorting is unique given the
  total preorder, so `List.mergeSort` with the same order is a faithful model.

* The scan (source lines 107-130) walks `i = 1 .. len-1`; it reads only the
  predecessor's `expiration` (never mutated) and the current record's own
  fields (mutated only at step `i` itself), so it is the fold `scanAux`.
  Removal (lines 132-135) pops exactly the marked indexes, highest first,
  which removes exactly the records whose `tossed` flag was set: a filter.

* `membership_iter` yields each surviving record's `fullrec`;
  `name_iter` yields the last record's `fullrec` of each group after
  assigning its `JoinDate` key - an in-place mutation we model explicitly
  with `nameIterMutate` so that claims about read-only behaviour can be
  settled against the real effect.
-/

namespace RunningClub

/-- A calendar date; stands for the zero-padded `YYYY-MM-DD` strings of the
source, whose lexical order is lexicographic order on these triples. -/
structure Date where
  year : Nat
  month : Nat
  day : Nat
deriving DecidableEq, Repr, Inhabited

/-- Strict lexical comparison of two date strings (`<` on the source's
`YYYY-MM-DD` strings). -/
def dateLt (a b : Date) : Bool :=
  decide (a.year < b.year) ||
    (decide (a.year = b.year) &&
      (decide (a.month < b.month) ||
        (decide (a.month = b.month) && decide (a.day < b.day))))

/-- Non-strict lexical comparison (`<=` on date strings). -/
def dateLe (a b : Date) : Bool :=
  !dateLt b a

/-- `datetime(lastexp_dt.year + 1, 1, 1)` from source line 115: January 1 of
the year after `e`'s year. -/
def jan1after (e : Date) : Date :=
  { year := e.year + 1, month := 1, day := 1 }

/-- One row of the RunningAHEAD export (the `membership` dict): the fields the
algorithm reads, plus an opaque `payload` for the remaining pass-through
columns. -/
structure RawRecord where
  memberID : Nat
  givenName : Nat
  familyName : Nat
  dob : Nat
  joinDate : Date
  expirationDate : Date
  payload : Nat
deriving DecidableEq, Repr, Inhabited

/-- The grouping key `thisname = (lname, fname, dob)` (source line 91). -/
def keyOf (r : RawRecord) : Nat × Nat × Nat :=
  (r.familyName, r.givenName, r.dob)

/-- `thisrec` (source line 90): the significant fields pulled out of a row,
with a back-reference `fullrec` to the row itself.  `tossed` models the
`'tossed'` key, absent (`false`) until the scan sets it. -/
structure MemberRec where
  memberID : Nat
  name : Nat × Nat
  join : Date
  expiration : Date
  dob : Nat
  fullrec : RawRecord
  tossed : Bool
deriving DecidableEq, Repr, Inhabited

/-- Build `thisrec` from a row (source lines 81-90). -/
def toMemberRec (m : RawRecord) : MemberRec :=
  { memberID := m.memberID
    name := (m.familyName, m.givenName)
    join := m.joinDate
    expiration := m.expirationDate
    dob := m.dob
    fullrec := m
    tossed := false }

/-- The records appended under key `k` of `self.names`, in input order
(source lines 80-94). -/
def groupRecords (input : List RawRecord) (k : Nat × Nat × Nat) : List MemberRec :=
  (input.filter (fun r => keyOf r == k)).map toMemberRec

/-- The sort key order of source line 106:
`sorted(..., key=lambda k: (k['expiration'], k['join']))`, i.e. the lexical
pair `(expiration, join)`. -/
def recLe (a b : MemberRec) : Bool :=
  dateLt a.expiration b.expiration ||
    (a.expiration == b.expiration && dateLe a.join b.join)

/-- The sort key order as a relation. -/
def recLeR (a b : MemberRec) : Prop := recLe a b = true

instance decRecLeR : DecidableRel recLeR :=
  fun a b => instDecidableEqBool (recLe a b) true

/-- A group after the stable sort of source line 106.  Python's `sorted` is a
stable sort by the `(expiration, join)` key; a stable sort's output is
uniquely determined by the total preorder, so any stable sorting algorithm is
a faithful model.  We use insertion sort, which the kernel can evaluate. -/
def sortedGroup (input : List RawRecord) (k : Nat × Nat × Nat) : List MemberRec :=
  (groupRecords input k).insertionSort recLeR

/-- One step of the overlap scan (source lines 112-130) applied to the pair
`(prev, cur)`: on overlap (`cur.join <= prev.expiration`) the toss mark is set
first when `jan1 > cur.expiration` (lines 119-121), then the join date is
pushed to `jan1` in both `thisrec` and the underlying row (lines 129-130). -/
def processPair (prev cur : MemberRec) : MemberRec :=
  if dateLe cur.join prev.expiration then
    if dateLt cur.expiration (jan1after prev.expiration) then
      { cur with
          tossed := true
          join := jan1after prev.expiration
          fullrec := { cur.fullrec with joinDate := jan1after prev.expiration } }
    else
      { cur with
          join := jan1after prev.expiration
          fullrec := { cur.fullrec with joinDate := jan1after prev.expiration } }
  else cur

/-- The scan over positions `1 .. len-1` (source lines 108-130): each record
is processed against the state of its predecessor. -/
def scanAux : MemberRec → List MemberRec → List MemberRec
  | _, [] => []
  | prev, cur :: rest => processPair prev cur :: scanAux (processPair prev cur) rest

/-- The whole scan of one sorted group; position 0 is never touched because
the loop starts at `i = 1`. -/
def scanGroup : List MemberRec → List MemberRec
  | [] => []
  | first :: rest => first :: scanAux first rest

/-- The group after the deferred removal of tossed records
(source lines 132-135): popping the marked indexes, highest first, removes
exactly the records whose `tossed` flag was set. -/
def survivorsOf (input : List RawRecord) (k : Nat × Nat × Nat) : List MemberRec :=
  (scanGroup (sortedGroup input k)).filter (fun r => !r.tossed)

/-- The distinct identity keys, in first-appearance order; stands for the
key set of the `self.names` dict. -/
def keysOf (input : List RawRecord) : List (Nat × Nat × Nat) :=
  (input.map keyOf).dedup

/-- The reconciled `self.names` state after `__init__`: each identity key with
its cleaned group. -/
def buildState (input : List RawRecord) :
    List ((Nat × Nat × Nat) × List MemberRec) :=
  (keysOf input).map (fun k => (k, survivorsOf input k))

/-- `membership_iter` (source lines 146-153): every surviving record's
`fullrec`, group by group. -/
def membershipIterOf (st : List ((Nat × Nat × Nat) × List MemberRec)) :
    List RawRecord :=
  st.flatMap (fun p => p.2.map (fun r => r.fullrec))

/-- The record one `name_iter` step yields for a group (source lines 163-165):
the last record's `fullrec` with its `JoinDate` key assigned the group's first
join date.  `none` for an empty group, where the source would fault. -/
def nameIterRecord (g : List MemberRec) : Option RawRecord :=
  match g.head?, g.getLast? with
  | some first, some last => some { last.fullrec with joinDate := first.join }
  | _, _ => none

/-- Replace the last element of a list by `f` of it. -/
def modifyLast (f : MemberRec → MemberRec) : List MemberRec → List MemberRec
  | [] => []
  | [a] => [f a]
  | a :: b :: rest => a :: modifyLast f (b :: rest)

/-- The in-place effect of one `name_iter` step on a group (source line 164):
the assignment `thismembership['JoinDate'] = self.names[thisname][0]['join']`
writes through the last record's `fullrec`. -/
def nameIterMutate (g : List MemberRec) : List MemberRec :=
  match g.head? with
  | none => g
  | some first =>
      modifyLast
        (fun last =>
          { last with fullrec := { last.fullrec with joinDate := first.join } }) g

/-- The sequence `name_iter` yields over a whole state. -/
def nameIterOf (st : List ((Nat × Nat × Nat) × List MemberRec)) :
    List RawRecord :=
  st.filterMap (fun p => nameIterRecord p.2)

/-- The state after a full `name_iter` traversal: every group's last record
has had its row's `JoinDate` overwritten. -/
def nameIterPost (st : List ((Nat × Nat × Nat) × List MemberRec)) :
    List ((Nat × Nat × Nat) × List MemberRec) :=
  st.map (fun p => (p.1, nameIterMutate p.2))

/-! ### The source of `__init__`'s argument (source lines 51-75)

`memberfile` may be a filename string, an already-open file object, or an
in-memory list; anything else makes the constructor raise before any state is
built (the source raises the undefined name `unsupportedFileType`, which
still aborts construction with an exception). -/

/-- The message of the exception raised on an unhandled argument type. -/
def unsupportedFileType : String := "unsupportedFileType"

/-- The shapes `__init__` inspects with `type(memberfile)`; each accepted
shape ultimately delivers a sequence of parsed rows. -/
inductive MemberFileArg where
  | filenameStr (contents : List RawRecord)
  | fileHandle (contents : List RawRecord)
  | memberList (contents : List RawRecord)
  | otherType
deriving DecidableEq, Repr

/-- The reconciler's state after `__init__`: the cleaned `self.names`. -/
structure RunningAheadMembers where
  names : List ((Nat × Nat × Nat) × List MemberRec)
deriving DecidableEq, Repr

/-- Construction from an in-memory row sequence. -/
def mkRunningAheadMembers (input : List RawRecord) : RunningAheadMembers :=
  ⟨buildState input⟩

/-- `__init__` including its argument-shape dispatch. -/
def initRunningAheadMembers : MemberFileArg → Except String RunningAheadMembers
  | MemberFileArg.filenameStr c => Except.ok (mkRunningAheadMembers c)
  | MemberFileArg.fileHandle c => Except.ok (mkRunningAheadMembers c)
  | MemberFileArg.memberList c => Except.ok (mkRunningAheadMembers c)
  | MemberFileArg.otherType => Except.error unsupportedFileType

/-- `membership_iter` of a constructed reconciler. -/
def RunningAheadMembers.membership_iter (m : RunningAheadMembers) : List RawRecord :=
  membershipIterOf m.names

/-- `name_iter` of a constructed reconciler (the records it yields). -/
def RunningAheadMembers.name_iter (m : RunningAheadMembers) : List RawRecord :=
  nameIterOf m.names

/-! ### The construction with the diagnostic overlap sink supplied
(source lines 96-139).  The sink receives, at every detected overlap, the
predecessor's record and then the current record - the latter after the toss
mark of line 121 but before the join-date update of lines 129-130. -/

/-- One scan step together with the rows it writes to the overlap sink. -/
def processPairLog (prev cur : MemberRec) : MemberRec × List MemberRec :=
  if dateLe cur.join prev.expiration then
    if dateLt cur.expiration (jan1after prev.expiration) then
      ({ cur with
           tossed := true
           join := jan1after prev.expiration
           fullrec := { cur.fullrec with joinDate := jan1after prev.expiration } },
       [prev, { cur with tossed := true }])
    else
      ({ cur with
           join := jan1after prev.expiration
           fullrec := { cur.fullrec with joinDate := jan1after prev.expiration } },
       [prev, cur])
  else (cur, [])

/-- The scan of one group threading the overlap sink. -/
def scanAuxLog : MemberRec → List MemberRec → List MemberRec × List MemberRec
  | _, [] => ([], [])
  | prev, cur :: rest =>
      ((processPairLog prev cur).1 :: (scanAuxLog (processPairLog prev cur).1 rest).1,
       (processPairLog prev cur).2 ++ (scanAuxLog (processPairLog prev cur).1 rest).2)

/-- The whole scan of one sorted group, with the sink rows. -/
def scanGroupLog : List MemberRec → List MemberRec × List MemberRec
  | [] => ([], [])
  | first :: rest => (first :: (scanAuxLog first rest).1, (scanAuxLog first rest).2)

/-- One group's survivors and sink rows when the sink is supplied. -/
def survivorsOfLog (input : List RawRecord) (k : Nat × Nat × Nat) :
    List MemberRec × List MemberRec :=
  ((scanGroupLog (sortedGroup input k)).1.filter (fun r => !r.tossed),
   (scanGroupLog (sortedGroup input k)).2)

/-- The reconciled state built with the overlap sink supplied, together with
everything written to the sink. -/
def buildStateLog (input : List RawRecord) :
    List ((Nat × Nat × Nat) × List MemberRec) × List MemberRec :=
  (keysOf input).foldr
    (fun k acc =>
      ((k, (survivorsOfLog input k).1) :: acc.1, (survivorsOfLog input k).2 ++ acc.2))
    ([], [])

/-! ### Concrete inputs

`recA`/`recB` are the spec's first scenario ("Doe, Jane"); `recRA`/`recRB`
its second ("Roe, Sam"); `recRI`/`recRJ` an identity whose first-sorted
record has its expiration before its join date.
Field order: memberID, givenName, familyName, dob, joinDate, expirationDate,
payload. -/

def recA : RawRecord := ⟨1, 10, 20, 30, ⟨2020,1,1⟩, ⟨2021,6,30⟩, 100⟩

def recB : RawRecord := ⟨2, 10, 20, 30, ⟨2021,3,1⟩, ⟨2022,6,30⟩, 200⟩

def demoDoe : List RawRecord := [recA, recB]

def kDoe : Nat × Nat × Nat := (20, 10, 30)

def recRA : RawRecord := ⟨3, 11, 21, 31, ⟨2020,1,1⟩, ⟨2021,12,31⟩, 300⟩

def recRB : RawRecord := ⟨4, 11, 21, 31, ⟨2021,6,1⟩, ⟨2021,8,1⟩, 400⟩

def demoRoe : List RawRecord := [recRA, recRB]

def kRoe : Nat × Nat × Nat := (21, 11, 31)

def recRI : RawRecord := ⟨5, 12, 22, 32, ⟨2025,1,1⟩, ⟨2020,6,30⟩, 500⟩

def recRJ : RawRecord := ⟨6, 12, 22, 32, ⟨2019,1,1⟩, ⟨2021,12,31⟩, 600⟩

def demoInv : List RawRecord := [recRI, recRJ]

def kInv : Nat × Nat × Nat := (22, 12, 32)

/-! ### Order facts about the date comparison -/

lemma dateLt_trans {a b c : Date} (h1 : dateLt a b = true) (h2 : dateLt b c = true) :
    dateLt a c = true := by
  obtain ⟨y1, m1, d1⟩ := a
  obtain ⟨y2, m2, d2⟩ := b
  obtain ⟨y3, m3, d3⟩ := c
  simp only [dateLt, Bool.or_eq_true, Bool.and_eq_true, decide_eq_true_eq] at h1 h2 ⊢
  omega

lemma dateLt_asymm {a b : Date} (h : dateLt a b = true) : dateLt b a = false := by
  obtain ⟨y1, m1, d1⟩ := a
  obtain ⟨y2, m2, d2⟩ := b
  simp only [dateLt, Bool.or_eq_true, Bool.and_eq_true, decide_eq_true_eq,
    Bool.or_eq_false_iff, Bool.and_eq_false_iff, decide_eq_false_iff_not] at h ⊢
  omega

lemma dateLt_connex (a b : Date) :
    dateLt a b = true ∨ a = b ∨ dateLt b a = true := by
  obtain ⟨y1, m1, d1⟩ := a
  obtain ⟨y2, m2, d2⟩ := b
  simp only [dateLt, Bool.or_eq_true, Bool.and_eq_true, decide_eq_true_eq, Date.mk.injEq]
  omega

lemma dateLe_refl (a : Date) : dateLe a a = true := by
  obtain ⟨y1, m1, d1⟩ := a
  simp only [dateLe, dateLt, Bool.not_eq_eq_eq_not, Bool.not_true, Bool.or_eq_false_iff,
    Bool.and_eq_false_iff, decide_eq_false_iff_not]
  omega

lemma dateLe_of_dateLt {a b : Date} (h : dateLt a b = true) : dateLe a b = true := by
  simp only [dateLe, dateLt_asymm h, Bool.not_false]

lemma dateLt_of_not_dateLe {a b : Date} (h : ¬ dateLe a b = true) :
    dateLt b a = true := by
  simp only [dateLe, Bool.not_eq_true, Bool.not_eq_eq_eq_not, Bool.not_true] at h
  exact eq_true_of_ne_false h

lemma dateLt_of_dateLe_of_dateLt {a b c : Date} (h1 : dateLe a b = true)
    (h2 : dateLt b c = true) : dateLt a c = true := by
  obtain ⟨y1, m1, d1⟩ := a
  obtain ⟨y2, m2, d2⟩ := b
  obtain ⟨y3, m3, d3⟩ := c
  simp only [dateLe, dateLt, Bool.not_eq_eq_eq_not, Bool.not_true, Bool.or_eq_false_iff,
    Bool.and_eq_false_iff, decide_eq_false_iff_not, Bool.or_eq_true, Bool.and_eq_true,
    decide_eq_true_eq] at h1 h2 ⊢
  omega

lemma dateLe_trans {a b c : Date} (h1 : dateLe a b = true) (h2 : dateLe b c = true) :
    dateLe a c = true := by
  obtain ⟨y1, m1, d1⟩ := a
  obtain ⟨y2, m2, d2⟩ := b
  obtain ⟨y3, m3, d3⟩ := c
  simp only [dateLe, dateLt, Bool.not_eq_eq_eq_not, Bool.not_true, Bool.or_eq_false_iff,
    Bool.and_eq_false_iff, decide_eq_false_iff_not] at h1 h2 ⊢
  omega

lemma dateLe_or_dateLe (a b : Date) : dateLe a b = true ∨ dateLe b a = true := by
  rcases dateLt_connex a b with h | h | h
  · exact Or.inl (dateLe_of_dateLt h)
  · exact Or.inl (h ▸ dateLe_refl a)
  · exact Or.inr (dateLe_of_dateLt h)

lemma dateLt_jan1after (e : Date) : dateLt e (jan1after e) = true := by
  obtain ⟨y1, m1, d1⟩ := e
  simp only [jan1after, dateLt, Bool.or_eq_true, Bool.and_eq_true, decide_eq_true_eq]
  omega

/-! ### Order facts about the sort key `(expiration, join)` -/

lemma recLe_trans (a b c : MemberRec) (h1 : recLe a b = true) (h2 : recLe b c = true) :
    recLe a c = true := by
  simp only [recLe, Bool.or_eq_true, Bool.and_eq_true, beq_iff_eq] at h1 h2 ⊢
  rcases h1 with h1 | ⟨he1, hj1⟩ <;> rcases h2 with h2 | ⟨he2, hj2⟩
  · exact Or.inl (dateLt_trans h1 h2)
  · exact Or.inl (he2 ▸ h1)
  · exact Or.inl (he1 ▸ h2)
  · exact Or.inr ⟨he1.trans he2, dateLe_trans hj1 hj2⟩

lemma recLe_total (a b : MemberRec) : (recLe a b || recLe b a) = true := by
  simp only [recLe, Bool.or_eq_true, Bool.and_eq_true, beq_iff_eq]
  rcases dateLt_connex a.expiration b.expiration with h | h | h
  · exact Or.inl (Or.inl h)
  · rcases dateLe_or_dateLe a.join b.join with hj | hj
    · exact Or.inl (Or.inr ⟨h, hj⟩)
    · exact Or.inr (Or.inr ⟨h.symm, hj⟩)
  · exact Or.inr (Or.inl h)

instance : IsTrans MemberRec recLeR :=
  ⟨fun a b c h1 h2 => recLe_trans a b c h1 h2⟩

instance : IsTotal MemberRec recLeR :=
  ⟨fun a b => Bool.or_eq_true _ _ ▸ recLe_total a b⟩

lemma recLe_exp {a b : MemberRec} (h : recLe a b = true) :
    dateLe a.expiration b.expiration = true := by
  simp only [recLe, Bool.or_eq_true, Bool.and_eq_true, beq_iff_eq] at h
  rcases h with h | ⟨he, _⟩
  · exact dateLe_of_dateLt h
  · exact he ▸ dateLe_refl a.expiration

/-! ### Facts about one scan step -/

lemma processPair_expiration (prev cur : MemberRec) :
    (processPair prev cur).expiration = cur.expiration := by
  unfold processPair
  split
  · split <;> rfl
  · rfl

lemma processPair_tossed (prev cur : MemberRec) :
    (processPair prev cur).tossed =
      ((dateLe cur.join prev.expiration &&
        dateLt cur.expiration (jan1after prev.expiration)) || cur.tossed) := by
  unfold processPair
  split
  · split <;> simp_all
  · simp_all

lemma processPair_of_no_overlap {prev cur : MemberRec}
    (h : ¬ dateLe cur.join prev.expiration = true) : processPair prev cur = cur := by
  unfold processPair
  split
  · exact absurd (by assumption) h
  · rfl

lemma processPair_join_of_overlap {prev cur : MemberRec}
    (h : dateLe cur.join prev.expiration = true) :
    (processPair prev cur).join = jan1after prev.expiration := by
  unfold processPair
  split
  · split <;> rfl
  · simp_all

lemma processPair_fullrec_of_overlap {prev cur : MemberRec}
    (h : dateLe cur.join prev.expiration = true) :
    (processPair prev cur).fullrec =
      { cur.fullrec with joinDate := jan1after prev.expiration } := by
  unfold processPair
  split
  · split <;> rfl
  · simp_all

lemma processPair_join_after (prev cur : MemberRec) :
    dateLt prev.expiration (processPair prev cur).join = true := by
  by_cases h : dateLe cur.join prev.expiration = true
  · rw [processPair_join_of_overlap h]
    exact dateLt_jan1after prev.expiration
  · rw [processPair_of_no_overlap h]
    exact dateLt_of_not_dateLe h

/-! ### Facts about the scan of a whole group -/

lemma scanAux_length (l : List MemberRec) : ∀ prev, (scanAux prev l).length = l.length := by
  induction l with
  | nil => intro prev; rfl
  | cons cur rest ih =>
      intro prev
      simp only [scanAux, List.length_cons, ih]

lemma scanGroup_length (g : List MemberRec) : (scanGroup g).length = g.length := by
  cases g with
  | nil => rfl
  | cons a l => simp only [scanGroup, List.length_cons, scanAux_length]

lemma scanAux_map_expiration (l : List MemberRec) :
    ∀ prev, (scanAux prev l).map (fun r => r.expiration) =
      l.map (fun r => r.expiration) := by
  induction l with
  | nil => intro prev; rfl
  | cons cur rest ih =>
      intro prev
      simp only [scanAux, List.map_cons, ih, processPair_expiration]

lemma scanGroup_map_expiration (g : List MemberRec) :
    (scanGroup g).map (fun r => r.expiration) = g.map (fun r => r.expiration) := by
  cases g with
  | nil => rfl
  | cons a l => simp only [scanGroup, List.map_cons, scanAux_map_expiration]

lemma chain_exp_congr {cur cur1 : MemberRec} {rest : List MemberRec}
    (h : List.Chain' (fun a b : MemberRec => dateLe a.expiration b.expiration = true)
      (cur :: rest))
    (he : cur1.expiration = cur.expiration) :
    List.Chain' (fun a b : MemberRec => dateLe a.expiration b.expiration = true)
      (cur1 :: rest) := by
  cases rest with
  | nil => simp
  | cons b t =>
      rw [List.chain'_cons] at h ⊢
      exact ⟨he ▸ h.1, h.2⟩

lemma scanAux_join_after (l : List MemberRec) :
    ∀ prev : MemberRec,
      List.Chain' (fun a b : MemberRec => dateLe a.expiration b.expiration = true)
        (prev :: l) →
      ∀ c ∈ scanAux prev l, dateLt prev.expiration c.join = true := by
  induction l with
  | nil => intro prev _ c hc; simp [scanAux] at hc
  | cons cur rest ih =>
      intro prev h c hc
      simp only [scanAux, List.mem_cons] at hc
      rcases hc with rfl | hc2
      · exact processPair_join_after prev cur
      · have hpc : (processPair prev cur).expiration = cur.expiration :=
          processPair_expiration prev cur
        have hchain := chain_exp_congr h.tail hpc
        have hc3 := ih (processPair prev cur) hchain c hc2
        rw [hpc] at hc3
        exact dateLt_of_dateLe_of_dateLt (List.chain'_cons.mp h).1 hc3

lemma scanAux_pairwise (l : List MemberRec) :
    ∀ prev : MemberRec,
      List.Chain' (fun a b : MemberRec => dateLe a.expiration b.expiration = true)
        (prev :: l) →
      List.Pairwise (fun p c : MemberRec => dateLt p.expiration c.join = true)
        (scanAux prev l) := by
  induction l with
  | nil => intro prev _; exact List.Pairwise.nil
  | cons cur rest ih =>
      intro prev h
      have hpc : (processPair prev cur).expiration = cur.expiration :=
        processPair_expiration prev cur
      have hchain := chain_exp_congr h.tail hpc
      simp only [scanAux]
      exact List.Pairwise.cons (scanAux_join_after rest (processPair prev cur) hchain)
        (ih (processPair prev cur) hchain)

lemma scanGroup_pairwise (g : List MemberRec)
    (h : List.Chain' (fun a b : MemberRec => dateLe a.expiration b.expiration = true) g) :
    List.Pairwise (fun p c : MemberRec => dateLt p.expiration c.join = true)
      (scanGroup g) := by
  cases g with
  | nil => exact List.Pairwise.nil
  | cons a l =>
      simp only [scanGroup]
      exact List.Pairwise.cons (scanAux_join_after l a h) (scanAux_pairwise l a h)

/-! ### Positional form of the scan -/

lemma scanAux_adjacent (l : List MemberRec) :
    ∀ (prev : MemberRec) (i : Nat), i + 1 < l.length →
      (scanAux prev l).getD (i+1) default =
        processPair ((scanAux prev l).getD i default) (l.getD (i+1) default) := by
  induction l with
  | nil => intro prev i h; simp at h
  | cons cur rest ih =>
      intro prev i h
      cases i with
      | zero =>
          cases rest with
          | nil => simp at h
          | cons r0 rest1 => rfl
      | succ j =>
          have h2 : j + 1 < rest.length := by
            simpa using h
          simpa [scanAux] using ih (processPair prev cur) j h2

lemma scanGroup_adjacent (g : List MemberRec) (i : Nat) (h : i + 1 < g.length) :
    (scanGroup g).getD (i+1) default =
      processPair ((scanGroup g).getD i default) (g.getD (i+1) default) := by
  cases g with
  | nil => simp at h
  | cons a l =>
      cases i with
      | zero =>
          cases l with
          | nil => simp at h
          | cons b t => rfl
      | succ j =>
          have h2 : j + 1 < l.length := by simpa using h
          simpa [scanGroup] using scanAux_adjacent l a j h2

lemma scanGroup_getD_expiration (g : List MemberRec) (i : Nat) (h : i < g.length) :
    ((scanGroup g).getD i default).expiration = (g.getD i default).expiration := by
  have hl : i < (scanGroup g).length := by rw [scanGroup_length]; exact h
  have hq := congrArg (fun l : List Date => l[i]?) (scanGroup_map_expiration g)
  simp only [List.getElem?_map] at hq
  rw [List.getD_eq_getElem _ _ hl, List.getD_eq_getElem _ _ h]
  rw [List.getElem?_eq_getElem hl, List.getElem?_eq_getElem h] at hq
  simpa using hq

/-! ### Facts about the sorted group -/

lemma sortedGroup_pairwise (input : List RawRecord) (k : Nat × Nat × Nat) :
    List.Pairwise (fun a b : MemberRec => recLe a b = true) (sortedGroup input k) :=
  List.sorted_insertionSort recLeR (groupRecords input k)

lemma sortedGroup_chain_exp (input : List RawRecord) (k : Nat × Nat × Nat) :
    List.Chain' (fun a b : MemberRec => dateLe a.expiration b.expiration = true)
      (sortedGroup input k) :=
  ((sortedGroup_pairwise input k).imp (fun h => recLe_exp h)).chain'

lemma sortedGroup_mem_source {input : List RawRecord} {k : Nat × Nat × Nat}
    {r : MemberRec} (h : r ∈ sortedGroup input k) :
    ∃ m ∈ input, keyOf m = k ∧ r = toMemberRec m := by
  rw [sortedGroup, List.mem_insertionSort, groupRecords, List.mem_map] at h
  obtain ⟨m, hm, rfl⟩ := h
  rw [List.mem_filter] at hm
  exact ⟨m, hm.1, by simpa using hm.2, rfl⟩

lemma sortedGroup_tossed_false {input : List RawRecord} {k : Nat × Nat × Nat}
    {r : MemberRec} (h : r ∈ sortedGroup input k) : r.tossed = false := by
  obtain ⟨m, _, _, rfl⟩ := sortedGroup_mem_source h
  rfl

lemma sortedGroup_getD_mem {input : List RawRecord} {k : Nat × Nat × Nat} {i : Nat}
    (h : i < (sortedGroup input k).length) :
    (sortedGroup input k).getD i default ∈ sortedGroup input k := by
  rw [List.getD_eq_getElem _ _ h]
  exact List.getElem_mem h

lemma sortedGroup_length_pos_key_mem {input : List RawRecord} {k : Nat × Nat × Nat}
    (h : 0 < (sortedGroup input k).length) : k ∈ keysOf input := by
  have hne : sortedGroup input k ≠ [] := List.ne_nil_of_length_pos h
  obtain ⟨r, hr⟩ := List.exists_mem_of_ne_nil _ hne
  obtain ⟨m, hm, hk, _⟩ := sortedGroup_mem_source hr
  rw [keysOf, List.mem_dedup]
  exact List.mem_map.mpr ⟨m, hm, hk⟩

/-! ### Facts about the surviving group -/

lemma survivorsOf_cons {input : List RawRecord} {k : Nat × Nat × Nat}
    {g0 : MemberRec} {rest : List MemberRec}
    (hg : sortedGroup input k = g0 :: rest) :
    survivorsOf input k = g0 :: (scanAux g0 rest).filter (fun r => !r.tossed) := by
  have h0 : g0.tossed = false :=
    sortedGroup_tossed_false (hg ▸ List.mem_cons_self g0 rest)
  rw [survivorsOf, hg]
  simp only [scanGroup]
  rw [List.filter_cons_of_pos (by simp [h0])]

lemma sortedGroup_ne_nil {input : List RawRecord} {k : Nat × Nat × Nat}
    (hk : k ∈ keysOf input) : sortedGroup input k ≠ [] := by
  rw [keysOf, List.mem_dedup, List.mem_map] at hk
  obtain ⟨m, hm, hkm⟩ := hk
  have hmem : toMemberRec m ∈ groupRecords input k := by
    rw [groupRecords, List.mem_map]
    exact ⟨m, List.mem_filter.mpr ⟨hm, by simp [hkm]⟩, rfl⟩
  have hlen : 0 < (sortedGroup input k).length := by
    rw [sortedGroup, List.length_insertionSort]
    exact List.length_pos_of_mem hmem
  exact List.ne_nil_of_length_pos hlen

lemma survivorsOf_ne_nil {input : List RawRecord} {k : Nat × Nat × Nat}
    (hk : k ∈ keysOf input) : survivorsOf input k ≠ [] := by
  obtain ⟨g0, rest, hg⟩ := List.exists_cons_of_ne_nil (sortedGroup_ne_nil hk)
  rw [survivorsOf_cons hg]
  exact List.cons_ne_nil _ _

lemma survivor_fullrec_mem_view {input : List RawRecord} {k : Nat × Nat × Nat}
    {r : MemberRec} (hr : r ∈ survivorsOf input k) (hk : k ∈ keysOf input) :
    r.fullrec ∈ membershipIterOf (buildState input) := by
  rw [membershipIterOf, List.mem_flatMap]
  refine ⟨(k, survivorsOf input k), ?_, ?_⟩
  · rw [buildState]
    exact List.mem_map.mpr ⟨k, hk, rfl⟩
  · exact List.mem_map.mpr ⟨r, hr, rfl⟩

lemma nameIterRecord_isSome {g : List MemberRec} (h : g ≠ []) :
    (nameIterRecord g).isSome := by
  obtain ⟨a, t, rfl⟩ := List.exists_cons_of_ne_nil h
  have hl : (a :: t).getLast?.isSome := by
    rw [List.getLast?_isSome]
    exact List.cons_ne_nil a t
  obtain ⟨lastRec, hlast⟩ := Option.isSome_iff_exists.mp hl
  rw [nameIterRecord, List.head?_cons, hlast]
  rfl

lemma length_filterMap_of_isSome {α β : Type} (l : List α) (f : α → Option β)
    (h : ∀ a ∈ l, (f a).isSome) : (l.filterMap f).length = l.length := by
  induction l with
  | nil => rfl
  | cons a t ih =>
      have ha := h a (List.mem_cons_self a t)
      obtain ⟨b, hb⟩ := Option.isSome_iff_exists.mp ha
      rw [List.filterMap_cons, hb]
      simp only [List.length_cons]
      rw [ih (fun x hx => h x (List.mem_cons_of_mem a hx))]

/-! ### Facts about the in-place effect of `name_iter` -/

lemma modifyLast_cons_of_ne_nil (f : MemberRec → MemberRec) (a : MemberRec)
    {l : List MemberRec} (h : l ≠ []) :
    modifyLast f (a :: l) = a :: modifyLast f l := by
  cases l with
  | nil => exact absurd rfl h
  | cons b t => rfl

lemma modifyLast_ne_nil (f : MemberRec → MemberRec) {g : List MemberRec}
    (h : g ≠ []) : modifyLast f g ≠ [] := by
  cases g with
  | nil => exact absurd rfl h
  | cons a t =>
      cases t with
      | nil => exact List.cons_ne_nil _ _
      | cons b t2 => exact List.cons_ne_nil _ _

lemma modifyLast_modifyLast (f h : MemberRec → MemberRec) :
    ∀ g : List MemberRec,
      modifyLast f (modifyLast h g) = modifyLast (fun x => f (h x)) g := by
  intro g
  induction g with
  | nil => rfl
  | cons a rest ih =>
      cases rest with
      | nil => rfl
      | cons b t =>
          have hne : modifyLast h (b :: t) ≠ [] :=
            modifyLast_ne_nil h (List.cons_ne_nil b t)
          rw [modifyLast_cons_of_ne_nil h a (List.cons_ne_nil b t),
            modifyLast_cons_of_ne_nil f a hne,
            modifyLast_cons_of_ne_nil (fun x => f (h x)) a (List.cons_ne_nil b t), ih]

lemma getLast?_modifyLast (f : MemberRec → MemberRec) :
    ∀ g : List MemberRec, (modifyLast f g).getLast? = (g.getLast?).map f := by
  intro g
  induction g with
  | nil => rfl
  | cons a rest ih =>
      cases rest with
      | nil => rfl
      | cons b t =>
          rw [modifyLast_cons_of_ne_nil f a (List.cons_ne_nil b t)]
          have hne : modifyLast f (b :: t) ≠ [] :=
            modifyLast_ne_nil f (List.cons_ne_nil b t)
          obtain ⟨c, l2, hc⟩ := List.exists_cons_of_ne_nil hne
          rw [hc, List.getLast?_cons_cons, ← hc, ih, List.getLast?_cons_cons]

lemma nameIterMutate_cons (a : MemberRec) (rest : List MemberRec) :
    nameIterMutate (a :: rest) =
      modifyLast
        (fun lastRec =>
          { lastRec with fullrec := { lastRec.fullrec with joinDate := a.join } })
        (a :: rest) := rfl

lemma nameIterRecord_mutate (g : List MemberRec) :
    nameIterRecord (nameIterMutate g) = nameIterRecord g := by
  cases g with
  | nil => rfl
  | cons a rest =>
      cases rest with
      | nil => rfl
      | cons b t =>
          have hlastSome : ((a : MemberRec) :: b :: t).getLast?.isSome := by
            rw [List.getLast?_isSome]
            exact List.cons_ne_nil _ _
          obtain ⟨lastg, hlast⟩ := Option.isSome_iff_exists.mp hlastSome
          have hbt : ((b : MemberRec) :: t).getLast? = some lastg := by
            rw [← @List.getLast?_cons_cons _ a b t]
            exact hlast
          simp only [nameIterMutate, List.head?_cons]
          rw [modifyLast_cons_of_ne_nil _ a (List.cons_ne_nil b t)]
          have hne : modifyLast
              (fun lastRec =>
                { lastRec with fullrec := { lastRec.fullrec with joinDate := a.join } })
              (b :: t) ≠ [] :=
            modifyLast_ne_nil _ (List.cons_ne_nil b t)
          obtain ⟨c, l2, hc⟩ := List.exists_cons_of_ne_nil hne
          rw [nameIterRecord, nameIterRecord, List.head?_cons, List.head?_cons, hlast]
          rw [hc, @List.getLast?_cons_cons _ a c l2, ← hc, getLast?_modifyLast, hbt]
          rfl

lemma nameIterMutate_idem (g : List MemberRec) :
    nameIterMutate (nameIterMutate g) = nameIterMutate g := by
  cases g with
  | nil => rfl
  | cons a rest =>
      cases rest with
      | nil => rfl
      | cons b t =>
          have hne : modifyLast
              (fun lastRec =>
                { lastRec with fullrec := { lastRec.fullrec with joinDate := a.join } })
              (b :: t) ≠ [] :=
            modifyLast_ne_nil _ (List.cons_ne_nil b t)
          rw [nameIterMutate_cons, modifyLast_cons_of_ne_nil _ a (List.cons_ne_nil b t),
            nameIterMutate_cons, modifyLast_cons_of_ne_nil _ a hne,
            modifyLast_modifyLast]

lemma nameIterOf_post (st : List ((Nat × Nat × Nat) × List MemberRec)) :
    nameIterOf (nameIterPost st) = nameIterOf st := by
  have hfun : ((fun p : (Nat × Nat × Nat) × List MemberRec => nameIterRecord p.2) ∘
      (fun p : (Nat × Nat × Nat) × List MemberRec => (p.1, nameIterMutate p.2))) =
      (fun p : (Nat × Nat × Nat) × List MemberRec => nameIterRecord p.2) := by
    funext p
    simp only [Function.comp_apply]
    exact nameIterRecord_mutate p.2
  simp only [nameIterOf, nameIterPost, List.filterMap_map]
  rw [hfun]

lemma nameIterPost_idem (st : List ((Nat × Nat × Nat) × List MemberRec)) :
    nameIterPost (nameIterPost st) = nameIterPost st := by
  have hfun : ((fun p : (Nat × Nat × Nat) × List MemberRec => (p.1, nameIterMutate p.2)) ∘
      (fun p : (Nat × Nat × Nat) × List MemberRec => (p.1, nameIterMutate p.2))) =
      (fun p : (Nat × Nat × Nat) × List MemberRec => (p.1, nameIterMutate p.2)) := by
    funext p
    simp only [Function.comp_apply]
    rw [nameIterMutate_idem]
  simp only [nameIterPost, List.map_map]
  rw [hfun]

/-! ### The construction with the sink builds the same groups -/

lemma processPairLog_fst (prev cur : MemberRec) :
    (processPairLog prev cur).1 = processPair prev cur := by
  unfold processPairLog processPair
  split
  · split <;> rfl
  · rfl

lemma scanAuxLog_fst (l : List MemberRec) :
    ∀ prev, (scanAuxLog prev l).1 = scanAux prev l := by
  induction l with
  | nil => intro prev; rfl
  | cons cur rest ih =>
      intro prev
      simp only [scanAuxLog, scanAux, processPairLog_fst, ih]

lemma scanGroupLog_fst (g : List MemberRec) : (scanGroupLog g).1 = scanGroup g := by
  cases g with
  | nil => rfl
  | cons a l => simp only [scanGroupLog, scanGroup, scanAuxLog_fst]

lemma survivorsOfLog_fst (input : List RawRecord) (k : Nat × Nat × Nat) :
    (survivorsOfLog input k).1 = survivorsOf input k := by
  rw [survivorsOf, survivorsOfLog, scanGroupLog_fst]

lemma buildStateLog_fst (input : List RawRecord) :
    (buildStateLog input).1 = buildState input := by
  rw [buildStateLog, buildState]
  induction keysOf input with
  | nil => rfl
  | cons k ks ih =>
      simp only [List.foldr_cons, List.map_cons]
      rw [survivorsOfLog_fst, ih]

/-! ### Stability of the per-group sort -/

lemma sortedGroup_filter_key (input : List RawRecord) (k : Nat × Nat × Nat)
    (e j : Date) :
    (sortedGroup input k).filter (fun r => r.expiration == e && r.join == j) =
      (groupRecords input k).filter (fun r => r.expiration == e && r.join == j) := by
  have hpair : List.Pairwise (fun a b : MemberRec => recLe a b = true)
      ((groupRecords input k).filter (fun r => r.expiration == e && r.join == j)) := by
    apply List.pairwise_of_forall_mem_list
    intro x hx y hy
    have hxk := (List.mem_filter.mp hx).2
    have hyk := (List.mem_filter.mp hy).2
    simp only [Bool.and_eq_true, beq_iff_eq] at hxk hyk
    simp only [recLe, Bool.or_eq_true, Bool.and_eq_true, beq_iff_eq]
    refine Or.inr ⟨hxk.1.trans hyk.1.symm, ?_⟩
    rw [hxk.2, hyk.2]
    exact dateLe_refl j
  have hsub : List.Sublist
      ((groupRecords input k).filter (fun r => r.expiration == e && r.join == j))
      (sortedGroup input k) :=
    List.sublist_insertionSort hpair (List.filter_sublist _)
  have hself : ((groupRecords input k).filter
        (fun r => r.expiration == e && r.join == j)).filter
        (fun r => r.expiration == e && r.join == j) =
      (groupRecords input k).filter (fun r => r.expiration == e && r.join == j) :=
    List.filter_eq_self.mpr (fun a ha => (List.mem_filter.mp ha).2)
  have hsub2 : List.Sublist
      ((groupRecords input k).filter (fun r => r.expiration == e && r.join == j))
      ((sortedGroup input k).filter (fun r => r.expiration == e && r.join == j)) := by
    have h1 := List.Sublist.filter (fun r => r.expiration == e && r.join == j) hsub
    rwa [hself] at h1
  have hperm : List.Perm
      ((sortedGroup input k).filter (fun r => r.expiration == e && r.join == j))
      ((groupRecords input k).filter (fun r => r.expiration == e && r.join == j)) :=
    List.Perm.filter _ (List.perm_insertionSort recLeR (groupRecords input k))
  exact (List.Sublist.eq_of_length hsub2 hperm.length_eq.symm).symm

/-! ## The claims -/

/-- C1: after construction, in every identity group (so in particular every
group with at least 2 surviving intervals), every adjacent pair
`(prev, cur)` of surviving records in the group's sorted order satisfies
`cur.join > prev.expiration`, comparing the zero-padded `YYYY-MM-DD` date
strings as calendar dates. -/
theorem C1_nonoverlap_invariant (input : List RawRecord) (k : Nat × Nat × Nat) :
    List.Chain' (fun prev cur : MemberRec => dateLt prev.expiration cur.join = true)
      (survivorsOf input k) := by
  rw [survivorsOf]
  exact ((scanGroup_pairwise (sortedGroup input k)
    (sortedGroup_chain_exp input k)).filter _).chain'

/-- Witness for C1 on the spec's first scenario. -/
theorem C1_nonoverlap_invariant_witness :
    List.Chain' (fun prev cur : MemberRec => dateLt prev.expiration cur.join = true)
      (survivorsOf demoDoe kDoe) :=
  C1_nonoverlap_invariant demoDoe kDoe

/-- C2: the record at sorted position `i >= 1` of its identity group is
tossed if and only if its join date is `<=` the sorted predecessor's
expiration date and January 1 of (year of the predecessor's expiration + 1)
strictly exceeds its own expiration date; and no record that is not tossed
is ever removed from the group (the views draw from the surviving group). -/
theorem C2_toss_iff (input : List RawRecord) (k : Nat × Nat × Nat) (i : Nat)
    (h1 : 1 ≤ i) (h2 : i < (sortedGroup input k).length) :
    (((scanGroup (sortedGroup input k)).getD i default).tossed = true ↔
      (dateLe ((sortedGroup input k).getD i default).join
          ((sortedGroup input k).getD (i-1) default).expiration = true ∧
       dateLt ((sortedGroup input k).getD i default).expiration
          (jan1after ((sortedGroup input k).getD (i-1) default).expiration) = true)) ∧
    (∀ r ∈ scanGroup (sortedGroup input k), r.tossed = false →
      r ∈ survivorsOf input k) := by
  constructor
  · obtain ⟨j, rfl⟩ : ∃ j, i = j + 1 := ⟨i - 1, by omega⟩
    have hj : (j + 1) - 1 = j := by omega
    rw [hj, scanGroup_adjacent _ j h2, processPair_tossed,
      scanGroup_getD_expiration _ j (by omega),
      sortedGroup_tossed_false (sortedGroup_getD_mem h2)]
    simp [Bool.and_eq_true]
  · intro r hr hf
    rw [survivorsOf]
    exact List.mem_filter.mpr ⟨hr, by simp [hf]⟩

/-- Witness for C2 on the spec's second scenario; the tossed record is the
one at sorted position 1 (which, sorting by `(expiration, join)`, is the
record with expiration 2021-12-31). -/
theorem C2_toss_iff_witness :
    1 ≤ 1 ∧ 1 < (sortedGroup demoRoe kRoe).length ∧
    ((scanGroup (sortedGroup demoRoe kRoe)).getD 1 default).tossed = true :=
  ⟨by decide, by decide,
    ((C2_toss_iff demoRoe kRoe 1 (by decide) (by decide)).1).mpr ⟨by decide, by decide⟩⟩

/-- C9: whenever a record's join date is `<=` its sorted predecessor's
expiration date, the scan overwrites the `JoinDate` of the caller's own raw
input record with the computed January 1 boundary - also when the record is
then tossed (the hypothesis does not exclude tossing); the mutated `fullrec`
is the very record of the input list. -/
theorem C9_input_mutation (input : List RawRecord) (k : Nat × Nat × Nat) (i : Nat)
    (h1 : 1 ≤ i) (h2 : i < (sortedGroup input k).length)
    (hov : dateLe ((sortedGroup input k).getD i default).join
        ((sortedGroup input k).getD (i-1) default).expiration = true) :
    ((scanGroup (sortedGroup input k)).getD i default).fullrec =
      { ((sortedGroup input k).getD i default).fullrec with
          joinDate := jan1after ((sortedGroup input k).getD (i-1) default).expiration } ∧
    ((sortedGroup input k).getD i default).fullrec ∈ input := by
  constructor
  · obtain ⟨j, rfl⟩ : ∃ j, i = j + 1 := ⟨i - 1, by omega⟩
    have hj : (j + 1) - 1 = j := by omega
    rw [hj] at hov ⊢
    have hexp := scanGroup_getD_expiration (sortedGroup input k) j
      (show j < (sortedGroup input k).length by omega)
    rw [scanGroup_adjacent _ j h2,
      processPair_fullrec_of_overlap (by rw [hexp]; exact hov), hexp]
  · obtain ⟨m, hm, _, hr⟩ := sortedGroup_mem_source (sortedGroup_getD_mem h2)
    rw [hr]
    exact hm

/-- Witness for C9 on the spec's second scenario: the record at sorted
position 1 is tossed there, yet its raw record's join date is still
overwritten with the boundary. -/
theorem C9_input_mutation_witness :
    1 ≤ 1 ∧ 1 < (sortedGroup demoRoe kRoe).length ∧
    dateLe ((sortedGroup demoRoe kRoe).getD 1 default).join
      ((sortedGroup demoRoe kRoe).getD (1-1) default).expiration = true ∧
    ((scanGroup (sortedGroup demoRoe kRoe)).getD 1 default).tossed = true ∧
    (((scanGroup (sortedGroup demoRoe kRoe)).getD 1 default).fullrec =
      { ((sortedGroup demoRoe kRoe).getD 1 default).fullrec with
          joinDate := jan1after ((sortedGroup demoRoe kRoe).getD (1-1) default).expiration } ∧
     ((sortedGroup demoRoe kRoe).getD 1 default).fullrec ∈ demoRoe) :=
  ⟨by decide, by decide, by decide, by decide,
    C9_input_mutation demoRoe kRoe 1 (by decide) (by decide) (by decide)⟩

/-- C3 (counterexample to the claim as stated): when the first-sorted record
of a group has its expiration before its join date, the join-date field
reported by the latest-per-identity view is not the minimum join date among
the group's surviving records - a survivor has join 2021-01-01, strictly
before the reported 2025-01-01. -/
theorem C3_min_join_cex :
    (nameIterRecord (survivorsOf demoInv kInv)).map (fun r => r.joinDate) =
      some ⟨2025,1,1⟩ ∧
    (⟨2021,1,1⟩ : Date) ∈ (survivorsOf demoInv kInv).map (fun r => r.join) ∧
    dateLt ⟨2021,1,1⟩ ⟨2025,1,1⟩ = true ∧
    ¬ (∀ s ∈ survivorsOf demoInv kInv,
        dateLe (((nameIterRecord (survivorsOf demoInv kInv)).getD default).joinDate)
          s.join = true) := by decide

/-- C3 (amended): for every identity group present in the input, the record
yielded by the latest-per-identity view is the chronologically last surviving
record's raw payload with its join-date field replaced by the join date of
the group's first record in sorted order; provided every input record's join
date is `<=` its expiration date, that value is the minimum join date among
the group's surviving records. -/
theorem C3_latest_view (input : List RawRecord) (k : Nat × Nat × Nat)
    (hk : k ∈ keysOf input)
    (hwf : ∀ r ∈ input, dateLe r.joinDate r.expirationDate = true) :
    ∃ first lastRec,
      (survivorsOf input k).head? = some first ∧
      (survivorsOf input k).getLast? = some lastRec ∧
      nameIterRecord (survivorsOf input k) =
        some { lastRec.fullrec with joinDate := first.join } ∧
      (∀ s ∈ survivorsOf input k, dateLe first.join s.join = true) ∧
      first.join ∈ (survivorsOf input k).map (fun r => r.join) := by
  obtain ⟨g0, rest, hg⟩ := List.exists_cons_of_ne_nil (sortedGroup_ne_nil hk)
  have hs := survivorsOf_cons hg
  have hlastSome : (survivorsOf input k).getLast?.isSome := by
    rw [List.getLast?_isSome, hs]
    exact List.cons_ne_nil _ _
  obtain ⟨lastRec, hlast⟩ := Option.isSome_iff_exists.mp hlastSome
  have hhead : (survivorsOf input k).head? = some g0 := by
    rw [hs]
    rfl
  refine ⟨g0, lastRec, hhead, hlast, ?_, ?_, ?_⟩
  · rw [nameIterRecord, hhead, hlast]
  · intro s hsmem
    rw [hs] at hsmem
    rcases List.mem_cons.mp hsmem with rfl | hs2
    · exact dateLe_refl s.join
    · have hs3 : s ∈ scanAux g0 rest := (List.mem_filter.mp hs2).1
      have hchain : List.Chain'
          (fun a b : MemberRec => dateLe a.expiration b.expiration = true)
          (g0 :: rest) := by
        rw [← hg]
        exact sortedGroup_chain_exp input k
      have hlt : dateLt g0.expiration s.join = true :=
        scanAux_join_after rest g0 hchain s hs3
      obtain ⟨m, hm, _, hgm⟩ := sortedGroup_mem_source
        (show g0 ∈ sortedGroup input k by rw [hg]; exact List.mem_cons_self g0 rest)
      have hwfg : dateLe g0.join g0.expiration = true := by
        rw [hgm]
        exact hwf m hm
      exact dateLe_of_dateLt (dateLt_of_dateLe_of_dateLt hwfg hlt)
  · rw [hs]
    exact List.mem_map.mpr ⟨g0, List.mem_cons_self _ _, rfl⟩

/-- Witness for the amended C3 on the spec's first scenario. -/
theorem C3_latest_view_witness :
    kDoe ∈ keysOf demoDoe ∧
    (∀ r ∈ demoDoe, dateLe r.joinDate r.expirationDate = true) ∧
    (∃ first lastRec,
      (survivorsOf demoDoe kDoe).head? = some first ∧
      (survivorsOf demoDoe kDoe).getLast? = some lastRec ∧
      nameIterRecord (survivorsOf demoDoe kDoe) =
        some { lastRec.fullrec with joinDate := first.join } ∧
      (∀ s ∈ survivorsOf demoDoe kDoe, dateLe first.join s.join = true) ∧
      first.join ∈ (survivorsOf demoDoe kDoe).map (fun r => r.join)) :=
  ⟨by decide, by decide, C3_latest_view demoDoe kDoe (by decide) (by decide)⟩

/-- C4 (counterexample to the claim as stated): in the spec's first scenario
the record at sorted position 1 overlaps its predecessor, is not tossed, and
its join date is repaired to the boundary 2022-01-01 - yet the
latest-per-identity view yields that very raw record (payload 200) with the
join-date field 2020-01-01, not the repaired value, so it is false that both
output views report the repaired join date for that record. -/
theorem C4_both_views_cex :
    dateLe ((sortedGroup demoDoe kDoe).getD 1 default).join
      ((sortedGroup demoDoe kDoe).getD 0 default).expiration = true ∧
    ((scanGroup (sortedGroup demoDoe kDoe)).getD 1 default).tossed = false ∧
    ((scanGroup (sortedGroup demoDoe kDoe)).getD 1 default).join = ⟨2022,1,1⟩ ∧
    ((scanGroup (sortedGroup demoDoe kDoe)).getD 1 default).fullrec.payload = 200 ∧
    nameIterOf (buildState demoDoe) =
      [⟨2, 10, 20, 30, ⟨2020,1,1⟩, ⟨2022,6,30⟩, 200⟩] ∧
    (⟨2020,1,1⟩ : Date) ≠ ⟨2022,1,1⟩ := by decide

/-- C4 (amended): when an overlap is detected at sorted position `i >= 1`
(`cur.join <= prev.expiration`) and the record is not tossed, `cur`'s join
date is set to January 1 of (year(prev.expiration) + 1) and the same value is
written into the underlying raw record's `JoinDate` field; the record
survives and the full-record view reports the repaired join date for it.
(The latest-per-identity view overwrites the join date of the one record it
yields per group, so it need not report the boundary.) -/
theorem C4_overlap_repair (input : List RawRecord) (k : Nat × Nat × Nat) (i : Nat)
    (h1 : 1 ≤ i) (h2 : i < (sortedGroup input k).length)
    (hov : dateLe ((sortedGroup input k).getD i default).join
        ((sortedGroup input k).getD (i-1) default).expiration = true)
    (hnt : dateLt ((sortedGroup input k).getD i default).expiration
        (jan1after ((sortedGroup input k).getD (i-1) default).expiration) = false) :
    ((scanGroup (sortedGroup input k)).getD i default).join =
      jan1after ((sortedGroup input k).getD (i-1) default).expiration ∧
    ((scanGroup (sortedGroup input k)).getD i default).fullrec =
      { ((sortedGroup input k).getD i default).fullrec with
          joinDate := jan1after ((sortedGroup input k).getD (i-1) default).expiration } ∧
    ((scanGroup (sortedGroup input k)).getD i default).tossed = false ∧
    ((scanGroup (sortedGroup input k)).getD i default).fullrec ∈
      membershipIterOf (buildState input) := by
  obtain ⟨j, rfl⟩ : ∃ j, i = j + 1 := ⟨i - 1, by omega⟩
  have hj : (j + 1) - 1 = j := by omega
  rw [hj] at hov hnt ⊢
  have hexp := scanGroup_getD_expiration (sortedGroup input k) j
    (show j < (sortedGroup input k).length by omega)
  have hov2 : dateLe ((sortedGroup input k).getD (j+1) default).join
      (((scanGroup (sortedGroup input k)).getD j default).expiration) = true := by
    rw [hexp]
    exact hov
  have htf : ((sortedGroup input k).getD (j+1) default).tossed = false :=
    sortedGroup_tossed_false (sortedGroup_getD_mem h2)
  have hadj := scanGroup_adjacent (sortedGroup input k) j h2
  have htoss : ((scanGroup (sortedGroup input k)).getD (j+1) default).tossed = false := by
    rw [hadj, processPair_tossed, htf, hexp, hnt]
    simp [hov]
  refine ⟨?_, ?_, htoss, ?_⟩
  · rw [hadj, processPair_join_of_overlap hov2, hexp]
  · rw [hadj, processPair_fullrec_of_overlap hov2, hexp]
  · have hmem : (scanGroup (sortedGroup input k)).getD (j+1) default ∈
        scanGroup (sortedGroup input k) := by
      have hl : j + 1 < (scanGroup (sortedGroup input k)).length := by
        rw [scanGroup_length]
        exact h2
      rw [List.getD_eq_getElem _ _ hl]
      exact List.getElem_mem hl
    have hsurv : (scanGroup (sortedGroup input k)).getD (j+1) default ∈
        survivorsOf input k := by
      rw [survivorsOf]
      refine List.mem_filter.mpr ⟨hmem, ?_⟩
      simp only [Bool.not_eq_eq_eq_not, Bool.not_true]
      exact htoss
    exact survivor_fullrec_mem_view hsurv
      (sortedGroup_length_pos_key_mem (by omega))

/-- Witness for the amended C4 on the spec's first scenario. -/
theorem C4_overlap_repair_witness :
    1 ≤ 1 ∧ 1 < (sortedGroup demoDoe kDoe).length ∧
    dateLe ((sortedGroup demoDoe kDoe).getD 1 default).join
      ((sortedGroup demoDoe kDoe).getD (1-1) default).expiration = true ∧
    dateLt ((sortedGroup demoDoe kDoe).getD 1 default).expiration
      (jan1after ((sortedGroup demoDoe kDoe).getD (1-1) default).expiration) = false ∧
    (((scanGroup (sortedGroup demoDoe kDoe)).getD 1 default).join =
      jan1after ((sortedGroup demoDoe kDoe).getD (1-1) default).expiration ∧
     ((scanGroup (sortedGroup demoDoe kDoe)).getD 1 default).fullrec =
      { ((sortedGroup demoDoe kDoe).getD 1 default).fullrec with
          joinDate := jan1after ((sortedGroup demoDoe kDoe).getD (1-1) default).expiration } ∧
     ((scanGroup (sortedGroup demoDoe kDoe)).getD 1 default).tossed = false ∧
     ((scanGroup (sortedGroup demoDoe kDoe)).getD 1 default).fullrec ∈
       membershipIterOf (buildState demoDoe)) :=
  ⟨by decide, by decide, by decide, by decide,
    C4_overlap_repair demoDoe kDoe 1 (by decide) (by decide) (by decide) (by decide)⟩

/-- C5 (counterexample to the claim as stated): iterating the
latest-per-identity view mutates the underlying records - on the spec's first
scenario, the full-record view yields different records after a `name_iter`
traversal than before it, so the views are not read-only projections. -/
theorem C5_readonly_cex :
    membershipIterOf (nameIterPost (buildState demoDoe)) ≠
      membershipIterOf (buildState demoDoe) := by decide

/-- C5 (amended): `membership_iter` mutates nothing, but `name_iter`
overwrites the `JoinDate` of each group's last record's raw payload with the
group's first join date, so a later `membership_iter` traversal can differ
from one made before `name_iter` ran.  The mutation is idempotent: a repeated
`name_iter` traversal yields the same sequence and changes nothing further. -/
theorem C5_views_amended (st : List ((Nat × Nat × Nat) × List MemberRec)) :
    nameIterOf (nameIterPost st) = nameIterOf st ∧
    nameIterPost (nameIterPost st) = nameIterPost st :=
  ⟨nameIterOf_post st, nameIterPost_idem st⟩

/-- Witness for the amended C5 on the spec's first scenario. -/
theorem C5_views_amended_witness :
    nameIterOf (nameIterPost (buildState demoDoe)) = nameIterOf (buildState demoDoe) :=
  (C5_views_amended (buildState demoDoe)).1

/-- C6: after construction each identity group's intervals are ordered
ascending by the pair (expiration date, join date), and records with
identical expiration and join dates keep their original relative input order
(stable sort): filtering the sorted group by any fixed (expiration, join)
pair gives exactly the input-order sublist of the unsorted group. -/
theorem C6_sorted_stable (input : List RawRecord) (k : Nat × Nat × Nat) :
    List.Pairwise (fun a b : MemberRec => recLe a b = true) (sortedGroup input k) ∧
    ∀ e j : Date,
      (sortedGroup input k).filter (fun r => r.expiration == e && r.join == j) =
        (groupRecords input k).filter (fun r => r.expiration == e && r.join == j) :=
  ⟨sortedGroup_pairwise input k, fun e j => sortedGroup_filter_key input k e j⟩

/-- Witness for C6 on the spec's second scenario. -/
theorem C6_sorted_stable_witness :
    List.Pairwise (fun a b : MemberRec => recLe a b = true) (sortedGroup demoRoe kRoe) ∧
    (sortedGroup demoRoe kRoe).filter
        (fun r => r.expiration == (⟨2021,8,1⟩ : Date) && r.join == (⟨2021,6,1⟩ : Date)) =
      (groupRecords demoRoe kRoe).filter
        (fun r => r.expiration == (⟨2021,8,1⟩ : Date) && r.join == (⟨2021,6,1⟩ : Date)) :=
  ⟨(C6_sorted_stable demoRoe kRoe).1, (C6_sorted_stable demoRoe kRoe).2 ⟨2021,8,1⟩ ⟨2021,6,1⟩⟩

/-- C7: construction succeeds exactly on the accepted source shapes
(filename string, open file handle, in-memory list); on any other shape it
fails fast with the error, and the error case carries no reconciled state. -/
theorem C7_input_shape (arg : MemberFileArg) :
    (initRunningAheadMembers arg = Except.error unsupportedFileType ↔
      arg = MemberFileArg.otherType) ∧
    ((∃ m, initRunningAheadMembers arg = Except.ok m) ↔
      arg ≠ MemberFileArg.otherType) := by
  cases arg <;> simp [initRunningAheadMembers]

/-- Witness for C7 at the rejected shape. -/
theorem C7_input_shape_witness :
    initRunningAheadMembers MemberFileArg.otherType =
      Except.error unsupportedFileType :=
  (C7_input_shape MemberFileArg.otherType).1.mpr rfl

/-- C8: the reconciled groups, and the sequences produced by both output
views, are identical whether the construction also threads the diagnostic
overlap sink or not - the sink affects only the diagnostic rows, never the
business outcome. -/
theorem C8_sink_noninterference (input : List RawRecord) :
    (buildStateLog input).1 = buildState input ∧
    membershipIterOf (buildStateLog input).1 = membershipIterOf (buildState input) ∧
    nameIterOf (buildStateLog input).1 = nameIterOf (buildState input) := by
  refine ⟨buildStateLog_fst input, ?_, ?_⟩ <;> rw [buildStateLog_fst]

/-- Witness for C8 on the spec's first scenario. -/
theorem C8_sink_noninterference_witness :
    (buildStateLog demoDoe).1 = buildState demoDoe :=
  (C8_sink_noninterference demoDoe).1

/-- C10: every identity group keeps at least one interval - the record at
sorted index 0 is never tossed, so the surviving group starts with the same
record the sorted group starts with, and `name_iter` yields exactly one
record per distinct identity key of the input. -/
theorem C10_first_never_tossed (input : List RawRecord) :
    (∀ k ∈ keysOf input, survivorsOf input k ≠ [] ∧
      (survivorsOf input k).head? = (sortedGroup input k).head?) ∧
    (nameIterOf (buildState input)).length = (keysOf input).length := by
  constructor
  · intro k hk
    obtain ⟨g0, rest, hg⟩ := List.exists_cons_of_ne_nil (sortedGroup_ne_nil hk)
    rw [survivorsOf_cons hg, hg]
    exact ⟨List.cons_ne_nil _ _, rfl⟩
  · have hall : ∀ p ∈ buildState input,
        ((fun q : (Nat × Nat × Nat) × List MemberRec => nameIterRecord q.2) p).isSome := by
      intro p hp
      rw [buildState, List.mem_map] at hp
      obtain ⟨k, hk, rfl⟩ := hp
      exact nameIterRecord_isSome (survivorsOf_ne_nil hk)
    have h1 : (nameIterOf (buildState input)).length = (buildState input).length :=
      length_filterMap_of_isSome (buildState input)
        (fun q => nameIterRecord q.2) hall
    rw [h1, buildState, List.length_map]

/-- Witness for C10 on the spec's second scenario. -/
theorem C10_first_never_tossed_witness :
    kRoe ∈ keysOf demoRoe ∧ survivorsOf demoRoe kRoe ≠ [] ∧
    (nameIterOf (buildState demoRoe)).length = (keysOf demoRoe).length :=
  ⟨by decide, ((C10_first_never_tossed demoRoe).1 kRoe (by decide)).1,
    (C10_first_never_tossed demoRoe).2⟩

end RunningClub
